import Mathlib

/-!
Shallow embedding of the promxx metrics library core (src/registry.cpp,
include/promxx/registry.hpp): metric metadata and label canonicalization,
histogram bucket construction, histogram cells, the registry, and text
exposition. C++ `Unsigned` (`unsigned long long`, 64 bits) is modelled as
`Nat` with explicit `% 2 ^ 64` where the code's arithmetic can wrap; C++
`double` values are rationals, and every `double` operation the bucket
constructors perform (conversion from `Unsigned`, sum, difference, product,
quotient) is rounded to IEEE binary64 precision by `fl` — round to nearest,
ties to even, 53 significand bits — exactly as the hardware computes it;
C++ `std::string` byte-wise comparison is modelled as
code-point-lexicographic comparison of `String.data`, which coincides with
it on ASCII data. Exceptions (`throw Error{...}`) are modelled as
`Except String` carrying the exact message the code builds.
-/

namespace Promxx

/-- Number of values of `Unsigned` (C++ `unsigned long long`): 2 ^ 64. -/
def U64 : Nat := 2 ^ 64

/-! ### Histogram cell (`IHistogram`) -/

/-- The mutable state of `IHistogram`: `buckets_` (pairs of bound `le` and
cumulative count), `sum_`, `count_`. -/
structure HistCell where
  buckets : List (Nat × Nat)
  sum : Nat
  count : Nat
  deriving DecidableEq, Repr

/-- `IHistogram::IHistogram(Buckets const&)`: one zeroed counter per bound. -/
def mkHistCell (bounds : List Nat) : HistCell :=
  { buckets := bounds.map fun le => (le, 0), sum := 0, count := 0 }

/-- The bucket update of `IHistogram::observe`: `std::lower_bound` finds the
first bucket whose bound is not less than `v` (the bounds are kept sorted by
construction, so the linear scan below coincides with it), then every bucket
from that point on is incremented. Counts wrap modulo 2 ^ 64 (`Unsigned`
arithmetic; the source flags the absence of an overflow guard as a TODO). -/
def observeBuckets (v : Nat) : List (Nat × Nat) → List (Nat × Nat)
  | [] => []
  | b :: rest =>
    if b.1 < v then b :: observeBuckets v rest
    else (b.1, (b.2 + 1) % U64) :: rest.map fun p => (p.1, (p.2 + 1) % U64)

/-- `IHistogram::observe(Unsigned v)`: add `v` to `sum_`, 1 to `count_`
(both wrapping modulo 2 ^ 64), and bump the cumulative bucket counters. -/
def observe (v : Nat) (h : HistCell) : HistCell :=
  { buckets := observeBuckets v h.buckets
    sum := (h.sum + v) % U64
    count := (h.count + 1) % U64 }

/-- `ICounter::inc(Unsigned d)`: atomic add, wrapping modulo 2 ^ 64. -/
def inc (v d : Nat) : Nat := (v + d) % U64

/-! ### Metric metadata (`detail::MetricMeta`) -/

/-- Error message of `detail::MetricMeta::MetricMeta` on duplicate keys. -/
def dupLabelNameMsg (name : String) : String :=
  "Metric '" ++ name ++ "' has duplicate label names"

/-- Error message of `detail::Metric::Metric` on a key/value count mismatch. -/
def mismatchMsg (name : String) : String :=
  "Key/value mismatch for metric '" ++ name ++ "'"

/-- `detail::MetricMeta`: metric name, canonical (sorted) label keys each
paired with its original position in the caller-supplied key list, help. -/
structure MetricMeta where
  name : String
  keys : List (String × Nat)
  help : String
  deriving DecidableEq, Repr

/-- The order `std::sort` uses on `KeyValueI` pairs (`key_value_i_lt`):
compare the key strings only. -/
def keyLe (a b : String × Nat) : Prop := a.1.data ≤ b.1.data

instance : DecidableRel keyLe := fun a b =>
  inferInstanceAs (Decidable (a.1.data ≤ b.1.data))

instance : IsTotal (String × Nat) keyLe := ⟨fun a b => le_total a.1.data b.1.data⟩

instance : IsTrans (String × Nat) keyLe := ⟨fun _ _ _ h1 h2 => le_trans h1 h2⟩

/-- `std::adjacent_find` with `key_value_i_eq`: two neighbouring pairs with
equal key strings. -/
def hasAdjacentDupKey : List (String × Nat) → Bool
  | a :: b :: rest => a.1 == b.1 || hasAdjacentDupKey (b :: rest)
  | _ => false

/-- The key canonicalization of `detail::MetricMeta::MetricMeta`: pair each
key with its original position, then sort by key string. -/
def sortKeys (keys : List String) : List (String × Nat) :=
  List.insertionSort keyLe (keys.enum.map fun p => (p.2, p.1))

/-- `detail::MetricMeta::MetricMeta(name, keys, help)`: canonicalize the
keys, reject adjacent (hence any) duplicates. -/
def mkMetricMeta (name : String) (keys : List String) (help : String) :
    Except String MetricMeta :=
  let ks := sortKeys keys
  if hasAdjacentDupKey ks then .error (dupLabelNameMsg name)
  else .ok { name := name, keys := ks, help := help }

/-! ### Metric instances (`detail::Metric`, cells) -/

/-- The cell payload a registered series carries (the source keeps one
subclass per metric kind; gauges are omitted here, no claim touches them). -/
inductive Cell where
  | counter (v : Nat)
  | histogram (h : HistCell)
  deriving DecidableEq, Repr

/-- The label-rendering loop of `detail::Metric::Metric`: comma-joined
`key="value"` pairs in canonical key order, each value fetched from the
caller-supplied list at the key's original position (`values.at(it->second)`;
the position is always in bounds when the count check passed, so the
out-of-range default is never taken). -/
def renderLabels (keys : List (String × Nat)) (values : List String) : String :=
  String.intercalate "," (keys.map fun kv =>
    kv.1 ++ "=\"" ++ values.getD kv.2 "" ++ "\"")

/-- A registered series (`detail::Metric` plus its cell state). -/
structure Metric where
  name : String
  type : String
  help : String
  labels : String
  cell : Cell
  deriving DecidableEq, Repr

/-- `detail::Metric::Metric(type, mm, values)`: reject a key/value count
mismatch, otherwise render the label string once. -/
def mkMetric (type : String) (mm : MetricMeta) (values : List String)
    (cell : Cell) : Except String Metric :=
  if mm.keys.length ≠ values.length then .error (mismatchMsg mm.name)
  else .ok { name := mm.name, type := type, help := mm.help,
             labels := renderLabels mm.keys values, cell := cell }

/-! ### Histogram descriptors and bucket construction -/

/-- Error message of `histogram_keys` on the reserved key `"le"`. -/
def reservedMsg : String := "\"le\" is not allowed as label name in histogram"

/-- Error message on explicit bounds out of order. -/
def unorderedMsg (name : String) : String :=
  "Histogram '" ++ name ++ "' buckets must be in increasing order"

/-- Error message on a linear delta below 1. -/
def linDeltaMsg (name : String) : String :=
  "Histogram '" ++ name ++ "' delta must be not less than 1"

/-- Error message on an exponential delta not above 1. -/
def expDeltaMsg (name : String) : String :=
  "Histogram '" ++ name ++ "' delta must be greater than 1"

/-- Error message on bound generation overflow. -/
def overflowMsg (name : String) : String :=
  "Histogram '" ++ name ++ "' boundaries overflow"

/-- Error message on collapsed exponential bounds. -/
def dupBucketMsg (name : String) : String :=
  "Histogram '" ++ name ++ "' got duplicate buckets, try to increase the delta"

/-- `histogram_keys`: reject a label key equal to `"le"` (exact,
case-sensitive `std::string` equality via `std::find`). -/
def histogramKeys (keys : List String) : Except String (List String) :=
  if keys.contains "le" then .error reservedMsg else .ok keys

/-- The adjacent-order scan of `Histogram::Histogram(Buckets)`: every
element strictly greater than its predecessor. -/
def strictlyInc : List Nat → Bool
  | a :: b :: rest => decide (a < b) && strictlyInc (b :: rest)
  | _ => true

/-- A histogram descriptor: `class Histogram`, metadata plus `bounds_`. -/
structure Histogram where
  meta : MetricMeta
  bounds : List Nat
  deriving DecidableEq, Repr

/-- `Histogram::Histogram(name, Buckets, help, keys)`: `histogram_keys`
runs first (it is evaluated as a base-initializer argument), then the
`MetricMeta` base constructor, then the strict-increase check. -/
def mkHistogram (name : String) (bounds : List Nat) (help : String)
    (keys : List String) : Except String Histogram := do
  let ks ← histogramKeys keys
  let mm ← mkMetricMeta name ks help
  if strictlyInc bounds then pure { meta := mm, bounds := bounds }
  else throw (unorderedMsg name)

/-- `LinearBuckets` (`detail::AutoBuckets<Linear>`): `start` is `Unsigned`,
`delta` a `double` (a rational; the arithmetic below rounds every operation
on it to binary64 precision), `count` a `size_t`. -/
structure LinearBuckets where
  start : Nat
  delta : ℚ
  count : Nat

/-- `ExponentialBuckets` (`detail::AutoBuckets<Exponential>`). -/
structure ExponentialBuckets where
  start : Nat
  delta : ℚ
  count : Nat

/-- Round a rational to the nearest integer, ties to even — the tie rule of
IEEE 754 round-to-nearest, used by every `double` operation below. -/
def roundHalfEven (q : ℚ) : ℤ :=
  if Int.fract q < 1 / 2 then ⌊q⌋
  else if 1 / 2 < Int.fract q then ⌊q⌋ + 1
  else if Even ⌊q⌋ then ⌊q⌋ else ⌊q⌋ + 1

/-- Round a positive rational to binary64 precision: scale by the power of
two that brings it into `[2^52, 2^53)`, round the scaled value to the
nearest integer (ties to even), scale back. -/
def flPos (x : ℚ) : ℚ :=
  (roundHalfEven (x * 2 ^ (52 - Int.log 2 x)) : ℚ) * 2 ^ (Int.log 2 x - 52)

/-- `fl x`: the IEEE binary64 `double` nearest `x` (round to nearest, ties
to even; zero and sign handled exactly). Subnormals (below `2^-1022`) and
overflow to infinity (beyond `2^1024`) are far outside the magnitudes the
bucket constructors compute with and keep their normal-range rounding here.
Each C++ `double` operation `a ∘ b` computes `fl` of the exact result, and
converting an `Unsigned` `n` to `double` yields `fl n`. -/
def fl (x : ℚ) : ℚ :=
  if x = 0 then 0 else if x < 0 then -flPos (-x) else flPos x

/-- One step of the linear generation loop, `le += lb.delta`: the `double`
sum of the converted `le` and `delta` is rounded, then converted back to
`Unsigned`, truncating (for the nonnegative values reached here, a floor;
a result at or above `2^64` would be undefined behaviour in C++ and is not
asserted by any theorem below). -/
def linStep (delta : ℚ) (le : Nat) : Nat := (⌊fl (fl (le : ℚ) + delta)⌋).toNat

/-- The generation loop of `Histogram::Histogram(LinearBuckets)`, producing
the bounds after the first: while another bound is needed, fail if
`le > Unsigned(-1) - lb.delta` (both sides `double`: `Unsigned(-1)`
converts to `fl (2^64 - 1)` and the difference is rounded again), else
`le += lb.delta` (`linStep`). -/
def linearBounds (name : String) (delta : ℚ) : Nat → Nat → Except String (List Nat)
  | _, 0 => .ok []
  | le, rem + 1 =>
    if fl (fl ((2 : ℚ) ^ 64 - 1) - delta) < fl (le : ℚ) then
      .error (overflowMsg name)
    else (linearBounds name delta (linStep delta le) rem).map (linStep delta le :: ·)

/-- `Histogram::Histogram(name, LinearBuckets, help, keys)`. -/
def mkHistogramLinear (name : String) (lb : LinearBuckets) (help : String)
    (keys : List String) : Except String Histogram := do
  let ks ← histogramKeys keys
  let mm ← mkMetricMeta name ks help
  if lb.delta < 1 then throw (linDeltaMsg name)
  else if 0 < lb.count then
    let rest ← linearBounds name lb.delta lb.start (lb.count - 1)
    pure { meta := mm, bounds := lb.start :: rest }
  else pure { meta := mm, bounds := [] }

/-- One step of the exponential generation loop,
`le = std::floor(le * eb.delta)`: the `double` product of the converted
`le` and `delta` is rounded, `std::floor` zeroes its fractional bits
(exact on a `double`), and the conversion back to `Unsigned` keeps the
integral value (a result at or above `2^64` would make that conversion
undefined behaviour in C++; the claim theorems below only assert executions
whose converted steps stay below `2^64`). -/
def expStep (delta : ℚ) (le : Nat) : Nat := (⌊fl (fl (le : ℚ) * delta)⌋).toNat

/-- The overflow guard of the exponential loop holds (no throw) when
`le <= std::floor(Unsigned(-1) / eb.delta)`: `Unsigned(-1)` converts to
`fl (2^64 - 1)`, the quotient is rounded, and `std::floor` of that `double`
is exact; the comparison of the two `double`s is exact. -/
def expOk (delta : ℚ) (le : Nat) : Prop :=
  fl (le : ℚ) ≤ (⌊fl (fl ((2 : ℚ) ^ 64 - 1) / delta)⌋ : ℚ)

instance (delta : ℚ) (le : Nat) : Decidable (expOk delta le) :=
  inferInstanceAs (Decidable (_ ≤ _))

/-- The generation loop of `Histogram::Histogram(ExponentialBuckets)`: while
another bound is needed, fail if `le > floor(Unsigned(-1) / delta)`, else
the next bound is `floor(le * delta)` (`expStep`); fail if it equals the
previous one. -/
def expBounds (name : String) (delta : ℚ) : Nat → Nat → Except String (List Nat)
  | _, 0 => .ok []
  | le, rem + 1 =>
    if (⌊fl (fl ((2 : ℚ) ^ 64 - 1) / delta)⌋ : ℚ) < fl (le : ℚ) then
      .error (overflowMsg name)
    else if expStep delta le = le then .error (dupBucketMsg name)
    else (expBounds name delta (expStep delta le) rem).map (expStep delta le :: ·)

/-- `Histogram::Histogram(name, ExponentialBuckets, help, keys)`. -/
def mkHistogramExp (name : String) (eb : ExponentialBuckets) (help : String)
    (keys : List String) : Except String Histogram := do
  let ks ← histogramKeys keys
  let mm ← mkMetricMeta name ks help
  if eb.delta ≤ 1 then throw (expDeltaMsg name)
  else if 0 < eb.count then
    let rest ← expBounds name eb.delta eb.start (eb.count - 1)
    pure { meta := mm, bounds := eb.start :: rest }
  else pure { meta := mm, bounds := [] }

/-! ### Registry -/

/-- Error message of `Registry::push` on a kind mismatch within a family. -/
def ambiguousMsg (name : String) : String :=
  "Metric '" ++ name ++ "' type is ambiguous"

/-- Error message of `Registry::push` on a duplicate rendered label string. -/
def dupLabelsMsg (name : String) : String :=
  "Metric '" ++ name ++ "' has duplicate labels"

/-- `Registry::Data::map_`, a `std::map` from family name to the family's
series in registration order, modelled as an association list kept sorted
by name (the map's byte-lexicographic `std::less<std::string>`). -/
abbrev Registry := List (String × List Metric)

/-- `Registry::push`: find or create the family (`map_.emplace`); if it
already has members, reject a differing kind, then a duplicate rendered
label string; otherwise append (`list.push_back`). -/
def pushMetric (m : Metric) : Registry → Except String Registry
  | [] => .ok [(m.name, [m])]
  | (n, fam) :: rest =>
    if m.name.data < n.data then .ok ((m.name, [m]) :: (n, fam) :: rest)
    else if m.name = n then
      match fam with
      | [] => .ok ((n, [m]) :: rest)
      | first :: _ =>
        if m.type ≠ first.type then .error (ambiguousMsg m.name)
        else if fam.any (fun v => m.labels == v.labels) then
          .error (dupLabelsMsg m.name)
        else .ok ((n, fam ++ [m]) :: rest)
    else (pushMetric m rest).map ((n, fam) :: ·)

/-! ### Text exposition (`flush`) -/

/-- `detail::Metric::header(os, suffix, extkey)`: name and suffix, then —
when there is anything to put in braces — an opening brace, the prerendered
labels, and either a closing brace (no extension key) or a trailing comma
context the caller completes. -/
def header (m : Metric) (suffix extkey : String) : String :=
  m.name ++ suffix ++
    (if m.labels ≠ "" ∧ extkey ≠ "" then "\x7b" ++ m.labels ++ "," ++ extkey
     else if m.labels ≠ "" then "\x7b" ++ m.labels ++ "\x7d"
     else if extkey ≠ "" then "\x7b" ++ extkey
     else "")

/-- `MetricImpl<Counter>::flush` / `MetricImpl<Histogram>::flush`: the
exposition lines of one series. -/
def flushMetric (m : Metric) : String :=
  match m.cell with
  | .counter v => header m "" "" ++ " " ++ Nat.repr v ++ "\n"
  | .histogram h =>
    String.join (h.buckets.map fun b =>
      header m "_bucket" "le" ++ "=\"" ++ Nat.repr b.1 ++ "\"\x7d " ++
        Nat.repr b.2 ++ "\n") ++
    (header m "_bucket" "le" ++ "=\"+Inf\"\x7d " ++ Nat.repr h.count ++ "\n") ++
    (header m "_sum" "" ++ " " ++ Nat.repr h.sum ++ "\n") ++
    (header m "_count" "" ++ " " ++ Nat.repr h.count ++ "\n")

/-- `Registry::flush`: per family (in the map's name order), a `# HELP` and
a `# TYPE` line from the first member, then every series in registration
order (a family list is never empty; an empty one renders nothing). -/
def flushRegistry (reg : Registry) : String :=
  String.join (reg.map fun fam =>
    match fam.2 with
    | [] => ""
    | m :: _ =>
      "# HELP " ++ m.name ++ " " ++ m.help ++ "\n" ++
      "# TYPE " ++ m.name ++ " " ++ m.type ++ "\n" ++
      String.join (fam.2.map flushMetric))

/-! ### Supporting lemmas -/

/-- The order `std::less<std::string>` induces on names and keys. -/
def strLe (a b : String) : Prop := a.data ≤ b.data

instance : DecidableRel strLe := fun a b =>
  inferInstanceAs (Decidable (a.data ≤ b.data))

instance : IsTotal String strLe := ⟨fun a b => le_total a.data b.data⟩

instance : IsTrans String strLe := ⟨fun _ _ _ h1 h2 => le_trans h1 h2⟩

instance : IsAntisymm String strLe :=
  ⟨fun _ _ h1 h2 => String.ext (le_antisymm h1 h2)⟩

theorem observeBuckets_eq_map (v : Nat) :
    ∀ l : List (Nat × Nat), (l.Pairwise fun a b => a.1 < b.1) →
      observeBuckets v l
        = l.map fun b => (b.1, if v ≤ b.1 then (b.2 + 1) % U64 else b.2) := by
  intro l
  induction l with
  | nil => intro _; rfl
  | cons b rest ih =>
    intro hp
    rw [List.pairwise_cons] at hp
    by_cases hb : b.1 < v
    · have hnle : ¬ v ≤ b.1 := by omega
      simp [observeBuckets, hb, hnle, ih hp.2]
    · have hv : v ≤ b.1 := by omega
      have hmap : rest.map (fun p => (p.1, (p.2 + 1) % U64))
          = rest.map fun b2 => (b2.1, if v ≤ b2.1 then (b2.2 + 1) % U64 else b2.2) :=
        List.map_congr_left fun p hmem => by
          have : v ≤ p.1 := le_trans hv (le_of_lt (hp.1 p hmem))
          simp [this]
      simp [observeBuckets, if_neg hb, if_pos hv, hmap]

theorem sortKeys_perm (keys : List String) :
    (sortKeys keys).Perm (keys.enum.map fun p => (p.2, p.1)) :=
  List.perm_insertionSort _ _

theorem sortKeys_sorted (keys : List String) : List.Sorted keyLe (sortKeys keys) :=
  List.sorted_insertionSort _ _

theorem enum_swap_map_fst (keys : List String) :
    ((keys.enum.map fun p => (p.2, p.1)).map Prod.fst) = keys := by
  rw [List.map_map]
  exact List.enum_map_snd keys

theorem sortKeys_map_fst_perm (keys : List String) :
    ((sortKeys keys).map Prod.fst).Perm keys := by
  have h := (sortKeys_perm keys).map Prod.fst
  rwa [enum_swap_map_fst] at h

theorem hasAdjacentDupKey_eq_false_iff :
    ∀ l : List (String × Nat), List.Sorted keyLe l →
      (hasAdjacentDupKey l = false ↔ (l.map Prod.fst).Nodup) := by
  intro l
  induction l with
  | nil => intro _; simp [hasAdjacentDupKey]
  | cons a t ih =>
    intro hs
    rw [List.sorted_cons] at hs
    match t with
    | [] => simp [hasAdjacentDupKey]
    | b :: rest =>
      have hab : keyLe a b := hs.1 b (List.mem_cons_self b rest)
      have hne_tail : a.1 ≠ b.1 → ∀ c ∈ b :: rest, a.1 ≠ c.1 := by
        intro hne c hc
        rcases List.mem_cons.mp hc with hcb | hcr
        · exact hcb ▸ hne
        · intro heq
          have hbc : keyLe b c :=
            (List.sorted_cons.mp hs.2).1 c hcr
          have : a.1.data = b.1.data :=
            le_antisymm hab (heq ▸ hbc)
          exact hne (String.ext this)
      constructor
      · intro h
        have h' := h
        simp only [hasAdjacentDupKey, Bool.or_eq_false_iff] at h'
        have hne : a.1 ≠ b.1 := by
          intro heq
          simp [heq] at h'
        rw [List.map_cons, List.nodup_cons]
        refine ⟨?_, (ih hs.2).mp h'.2⟩
        intro hmem
        rcases List.mem_map.mp hmem with ⟨c, hc, hceq⟩
        exact hne_tail hne c hc hceq.symm
      · intro h
        rw [List.map_cons, List.nodup_cons] at h
        have hne : a.1 ≠ b.1 := by
          intro heq
          exact h.1 (heq ▸ List.mem_map_of_mem Prod.fst (List.mem_cons_self b rest))
        simp only [hasAdjacentDupKey, Bool.or_eq_false_iff]
        exact ⟨by simp [hne], (ih hs.2).mpr h.2⟩

theorem sortKeys_nodup_iff (keys : List String) :
    ((sortKeys keys).map Prod.fst).Nodup ↔ keys.Nodup :=
  (sortKeys_map_fst_perm keys).nodup_iff

theorem mkMetricMeta_ok (name help : String) (keys : List String)
    (h : keys.Nodup) :
    mkMetricMeta name keys help = .ok ⟨name, sortKeys keys, help⟩ := by
  unfold mkMetricMeta
  rw [if_neg]
  rw [Bool.not_eq_true, hasAdjacentDupKey_eq_false_iff _ (sortKeys_sorted keys),
    sortKeys_nodup_iff]
  exact h

theorem mkMetricMeta_error_iff (name help : String) (keys : List String) :
    mkMetricMeta name keys help = .error (dupLabelNameMsg name) ↔ ¬ keys.Nodup := by
  constructor
  · intro h hnd
    rw [mkMetricMeta_ok name help keys hnd] at h
    exact Except.noConfusion h
  · intro hnd
    unfold mkMetricMeta
    rw [if_pos]
    rw [← Bool.not_eq_false, hasAdjacentDupKey_eq_false_iff _ (sortKeys_sorted keys),
      sortKeys_nodup_iff]
    exact hnd

/-! ### Claims -/

/-- C1: a single `observe(v)` increments the cumulative count of exactly the
buckets whose bound is `≥ v` by 1 and leaves buckets with bound `< v`
unchanged, adds `v` to the cell's sum and 1 to its total count (all counters
are `Unsigned`, so the additions are modulo 2 ^ 64 — the source's known,
unguarded overflow); `observe` is a total function with no error path. The
sortedness hypothesis is the bucket-set invariant every constructed cell has. -/
theorem observe_spec (c : HistCell)
    (hsorted : c.buckets.Pairwise fun a b => a.1 < b.1) (v : Nat) :
    (observe v c).buckets
        = c.buckets.map (fun b => (b.1, if v ≤ b.1 then (b.2 + 1) % U64 else b.2)) ∧
    (observe v c).sum = (c.sum + v) % U64 ∧
    (observe v c).count = (c.count + 1) % U64 :=
  ⟨observeBuckets_eq_map v c.buckets hsorted, rfl, rfl⟩

/-- Witness for C1 at a concrete cell and value. -/
theorem observe_spec_witness :
    (observe 6 ⟨[(5, 1), (10, 3)], 7, 2⟩).buckets
        = ([(5, 1), (10, 3)] : List (Nat × Nat)).map
            (fun b => (b.1, if 6 ≤ b.1 then (b.2 + 1) % U64 else b.2)) ∧
    (observe 6 ⟨[(5, 1), (10, 3)], 7, 2⟩).sum = (7 + 6) % U64 ∧
    (observe 6 ⟨[(5, 1), (10, 3)], 7, 2⟩).count = (2 + 1) % U64 :=
  observe_spec ⟨[(5, 1), (10, 3)], 7, 2⟩ (by decide) 6

/-- C7: descriptor construction fails with the duplicate-label-name error
precisely when two supplied key strings are equal; on success the canonical
key sequence is sorted lexicographically, its key strings are pairwise
distinct, and it is exactly the original keys each paired with its original
position (as a permutation of the position-tagged input). -/
theorem metricMeta_spec (name help : String) (keys : List String) :
    (mkMetricMeta name keys help = .error (dupLabelNameMsg name) ↔ ¬ keys.Nodup) ∧
    (∀ mm, mkMetricMeta name keys help = .ok mm →
      List.Sorted keyLe mm.keys ∧
      mm.keys.Pairwise (fun a b => a.1 ≠ b.1) ∧
      mm.keys.Perm (keys.enum.map fun p => (p.2, p.1))) := by
  refine ⟨mkMetricMeta_error_iff name help keys, ?_⟩
  intro mm hok
  have hnd : keys.Nodup := by
    by_contra hnd
    rw [(mkMetricMeta_error_iff name help keys).mpr hnd] at hok
    exact Except.noConfusion hok
  rw [mkMetricMeta_ok name help keys hnd] at hok
  cases hok
  refine ⟨sortKeys_sorted keys, ?_, sortKeys_perm keys⟩
  have : ((sortKeys keys).map Prod.fst).Nodup :=
    (sortKeys_nodup_iff keys).mpr hnd
  rw [List.Nodup, List.pairwise_map] at this
  exact this

/-- Witness for C7 at keys `["b", "a"]`. -/
theorem metricMeta_spec_witness :
    List.Sorted keyLe [("a", 1), ("b", 0)] ∧
    ([("a", 1), ("b", 0)] : List (String × Nat)).Pairwise (fun a b => a.1 ≠ b.1) ∧
    ([("a", 1), ("b", 0)] : List (String × Nat)).Perm
      ((["b", "a"].enum).map fun p => (p.2, p.1)) :=
  (metricMeta_spec "m" "" ["b", "a"]).2 ⟨"m", [("a", 1), ("b", 0)], ""⟩ rfl

theorem except_bind_ok {α β : Type} (a : α) (f : α → Except String β) :
    (Except.ok a >>= f : Except String β) = f a := rfl

theorem except_bind_error {α β : Type} (e : String) (f : α → Except String β) :
    (Except.error e >>= f : Except String β) = .error e := rfl

theorem except_throw {α : Type} (e : String) :
    (throw e : Except String α) = .error e := rfl

theorem except_pure {α : Type} (a : α) :
    (pure a : Except String α) = .ok a := rfl

theorem mkMetricMeta_ok_inv (name help : String) (keys : List String)
    (mm : MetricMeta) (h : mkMetricMeta name keys help = .ok mm) :
    keys.Nodup ∧ mm = ⟨name, sortKeys keys, help⟩ := by
  have hnd : keys.Nodup := by
    by_contra hnd
    rw [(mkMetricMeta_error_iff name help keys).mpr hnd] at h
    exact Except.noConfusion h
  rw [mkMetricMeta_ok name help keys hnd] at h
  cases h
  exact ⟨hnd, rfl⟩

theorem sortKeys_length (keys : List String) :
    (sortKeys keys).length = keys.length := by
  rw [(sortKeys_perm keys).length_eq, List.length_map, List.enum_length]

theorem sortKeys_indexOf (keys : List String) (hnd : keys.Nodup)
    (k : String) (i : Nat) (hmem : (k, i) ∈ sortKeys keys) :
    keys.indexOf k = i := by
  have hmem2 : (i, k) ∈ keys.enum := by
    have := (sortKeys_perm keys).mem_iff.mp hmem
    rcases List.mem_map.mp this with ⟨p, hp, heq⟩
    cases heq
    exact hp
  rcases List.get?_eq_some.mp (List.mk_mem_enum_iff_get?.mp hmem2) with ⟨hlt, hget⟩
  have hidx : List.indexOf k keys < keys.length := by
    rw [List.indexOf_lt_length]
    exact hget ▸ List.get_mem keys i hlt
  have hinj := List.nodup_iff_injective_get.mp hnd
  have : keys.get ⟨List.indexOf k keys, hidx⟩ = keys.get ⟨i, hlt⟩ :=
    (List.indexOf_get hidx).trans hget.symm
  have := hinj this
  exact congrArg Fin.val this

theorem sortKeys_map_fst_eq (keys : List String) :
    (sortKeys keys).map Prod.fst = List.insertionSort strLe keys := by
  refine List.eq_of_perm_of_sorted
    ((sortKeys_map_fst_perm keys).trans (List.perm_insertionSort strLe keys).symm)
    ?_ (List.sorted_insertionSort strLe keys)
  rw [List.Sorted, List.pairwise_map]
  exact sortKeys_sorted keys

/-- C3: a series renders its label string as the comma-joined `key="value"`
pairs over the descriptor's sorted canonical key order, each value fetched
from the caller-supplied list at the key's original pre-sort position; and
construction fails with the key/value-mismatch error exactly when the number
of supplied values differs from the descriptor's key count. -/
theorem metric_labels_spec (name help type : String) (keys : List String)
    (values : List String) (cell : Cell) (mm : MetricMeta)
    (hmm : mkMetricMeta name keys help = .ok mm) :
    (mkMetric type mm values cell = .error (mismatchMsg name) ↔
      values.length ≠ keys.length) ∧
    (∀ m, mkMetric type mm values cell = .ok m →
      m.labels = String.intercalate ","
        ((List.insertionSort strLe keys).map fun k =>
          k ++ "=\"" ++ values.getD (keys.indexOf k) "" ++ "\"")) := by
  obtain ⟨hnd, rfl⟩ := mkMetricMeta_ok_inv name help keys mm hmm
  have hlen : (sortKeys keys).length = keys.length := sortKeys_length keys
  constructor
  · constructor
    · intro h hne
      have : ¬ ((sortKeys keys).length ≠ values.length) := by omega
      simp only [mkMetric, if_neg this] at h
      exact Except.noConfusion h
    · intro hne
      have : (sortKeys keys).length ≠ values.length := by omega
      simp only [mkMetric, if_pos this]
  · intro m hok
    by_cases hne : (sortKeys keys).length ≠ values.length
    · simp only [mkMetric, if_pos hne] at hok
      exact Except.noConfusion hok
    · simp only [mkMetric, if_neg hne] at hok
      cases hok
      show renderLabels (sortKeys keys) values = _
      rw [renderLabels, ← sortKeys_map_fst_eq, List.map_map]
      congr 1
      refine List.map_congr_left fun kv hkv => ?_
      have : keys.indexOf kv.1 = kv.2 := sortKeys_indexOf keys hnd kv.1 kv.2 hkv
      simp [this]

/-- Witness for C3 at keys `["b", "a"]` and values `["vb", "va"]`. -/
theorem metric_labels_spec_witness :
    ("a=\"va\",b=\"vb\"" : String) = String.intercalate ","
      ((List.insertionSort strLe ["b", "a"]).map fun k =>
        k ++ "=\"" ++ (["vb", "va"].getD (["b", "a"].indexOf k) "") ++ "\"") :=
  (metric_labels_spec "m" "" "counter" ["b", "a"] ["vb", "va"] (.counter 0)
      ⟨"m", [("a", 1), ("b", 0)], ""⟩ rfl).2
    ⟨"m", "counter", "", "a=\"va\",b=\"vb\"", .counter 0⟩ rfl

theorem strictlyInc_iff_chain :
    ∀ l : List Nat, strictlyInc l = true ↔ l.Chain' (· < ·) := by
  intro l
  induction l with
  | nil => simp [strictlyInc]
  | cons a t ih =>
    match t with
    | [] => simp [strictlyInc]
    | b :: rest =>
      rw [List.chain'_cons, ← ih]
      simp [strictlyInc, Bool.and_eq_true]

/-- C6: with a valid key list, explicit-bounds histogram construction
succeeds (preserving the bounds) exactly when the supplied sequence is
strictly increasing, and fails with the unordered-buckets error otherwise;
in particular the empty sequence is valid and `[1, 2, 2]` is rejected (see
the witness). -/
theorem histogram_explicit_spec (name help : String) (keys : List String)
    (hle : keys.contains "le" = false) (hnd : keys.Nodup) (bounds : List Nat) :
    ((∃ h, mkHistogram name bounds help keys = .ok h ∧ h.bounds = bounds) ↔
      bounds.Chain' (· < ·)) ∧
    (¬ bounds.Chain' (· < ·) →
      mkHistogram name bounds help keys = .error (unorderedMsg name)) := by
  have hle' : "le" ∉ keys := by simpa using hle
  have hkeys : histogramKeys keys = .ok keys := by
    simp [histogramKeys, hle']
  have hmeta := mkMetricMeta_ok name help keys hnd
  have herr : ¬ bounds.Chain' (· < ·) →
      mkHistogram name bounds help keys = .error (unorderedMsg name) := by
    intro hchain
    have hs : strictlyInc bounds = false := by
      rw [← Bool.not_eq_true, strictlyInc_iff_chain]
      exact hchain
    simp [mkHistogram, hkeys, hmeta, hs, except_bind_ok, except_throw]
  refine ⟨⟨?_, ?_⟩, herr⟩
  · rintro ⟨h, hok, _⟩
    by_contra hchain
    rw [herr hchain] at hok
    exact Except.noConfusion hok
  · intro hchain
    have hs : strictlyInc bounds = true := (strictlyInc_iff_chain bounds).mpr hchain
    refine ⟨⟨⟨name, sortKeys keys, help⟩, bounds⟩, ?_, rfl⟩
    simp [mkHistogram, hkeys, hmeta, hs, except_bind_ok, except_pure]

/-- Witness for C6: `[1, 2, 2]` is rejected and `[]` is accepted. -/
theorem histogram_explicit_spec_witness :
    mkHistogram "h" [1, 2, 2] "" [] = .error (unorderedMsg "h") ∧
    ∃ h, mkHistogram "h" [] "" [] = .ok h ∧ h.bounds = [] :=
  ⟨(histogram_explicit_spec "h" "" [] rfl List.nodup_nil [1, 2, 2]).2
      (by simp [List.chain'_cons]),
    (histogram_explicit_spec "h" "" [] rfl List.nodup_nil []).1.mpr
      List.chain'_nil⟩

/-- C8: for each of the three bucket-construction modes, a histogram
descriptor whose key list contains the exact string `"le"` fails with the
reserved-label error (the `histogram_keys` check runs before anything else). -/
theorem histogram_reserved_le (name help : String) (keys : List String)
    (hmem : "le" ∈ keys) (bounds : List Nat) (lb : LinearBuckets)
    (eb : ExponentialBuckets) :
    mkHistogram name bounds help keys = .error reservedMsg ∧
    mkHistogramLinear name lb help keys = .error reservedMsg ∧
    mkHistogramExp name eb help keys = .error reservedMsg := by
  have h : histogramKeys keys = .error reservedMsg := by
    simp [histogramKeys, hmem]
  exact ⟨by simp [mkHistogram, h, except_bind_error],
    by simp [mkHistogramLinear, h, except_bind_error],
    by simp [mkHistogramExp, h, except_bind_error]⟩

/-- Witness for C8 at the key list `["le"]`. -/
theorem histogram_reserved_le_witness :
    mkHistogram "h5" [1] "" ["le"] = .error reservedMsg ∧
    mkHistogramLinear "h5" ⟨1, 2, 3⟩ "" ["le"] = .error reservedMsg ∧
    mkHistogramExp "h5" ⟨1, 2, 3⟩ "" ["le"] = .error reservedMsg :=
  histogram_reserved_le "h5" "" ["le"] (by decide) [1] ⟨1, 2, 3⟩ ⟨1, 2, 3⟩

/-- C2: pushing a series into a registry whose family (found by name; the
registry is name-sorted, the `std::map` invariant) already has members fails
with the kind-ambiguity error when the kinds differ, else with the
duplicate-labels error when the rendered label string already occurs in the
family, and otherwise succeeds, appending the series at the end of that
family and leaving every other family unchanged. -/
theorem push_spec (reg : Registry)
    (hsort : reg.Pairwise fun a b => a.1.data < b.1.data)
    (m first : Metric) (fam : List Metric)
    (hmem : (m.name, first :: fam) ∈ reg) :
    (m.type ≠ first.type → pushMetric m reg = .error (ambiguousMsg m.name)) ∧
    (m.type = first.type → (∃ v ∈ first :: fam, m.labels = v.labels) →
      pushMetric m reg = .error (dupLabelsMsg m.name)) ∧
    (m.type = first.type → (∀ v ∈ first :: fam, m.labels ≠ v.labels) →
      pushMetric m reg = .ok (reg.map fun e =>
        if e.1 = m.name then (e.1, e.2 ++ [m]) else e)) := by
  revert hsort hmem
  induction reg with
  | nil =>
    intro _ hmem
    cases hmem
  | cons hd rest ih =>
    intro hsort hmem
    obtain ⟨n, fml⟩ := hd
    rw [List.pairwise_cons] at hsort
    rcases List.mem_cons.mp hmem with heq | hmem2
    · injection heq with hn hf
      subst hn
      subst hf
      have hnotlt : ¬ m.name.data < m.name.data := lt_irrefl _
      refine ⟨?_, ?_, ?_⟩
      · intro hty
        simp [pushMetric, hnotlt, hty]
      · intro hty hdup
        have hany : (first :: fam).any (fun v => m.labels == v.labels) = true := by
          rw [List.any_eq_true]
          rcases hdup with ⟨v, hv, hlab⟩
          exact ⟨v, hv, by simpa using hlab⟩
        simp [pushMetric, hnotlt, hty, hany]
      · intro hty hnodup
        have hany : (first :: fam).any (fun v => m.labels == v.labels) = false := by
          rw [← Bool.not_eq_true, List.any_eq_true]
          rintro ⟨v, hv, hlab⟩
          exact hnodup v hv (by simpa using hlab)
        have hrest : rest.map (fun e => if e.1 = m.name then (e.1, e.2 ++ [m]) else e)
            = rest := by
          refine (List.map_congr_left fun e he => if_neg ?_).trans (List.map_id rest)
          intro hename
          have := hsort.1 e he
          rw [hename] at this
          exact lt_irrefl _ this
        simp [pushMetric, hnotlt, hty, hany, hrest]
    · have hlt : n.data < m.name.data := hsort.1 (m.name, first :: fam) hmem2
      have h1 : ¬ m.name.data < n.data := lt_asymm hlt
      have h2 : ¬ m.name = n := by
        intro h
        rw [h] at hlt
        exact lt_irrefl _ hlt
      have hpush : pushMetric m ((n, fml) :: rest)
          = (pushMetric m rest).map ((n, fml) :: ·) := by
        simp only [pushMetric, if_neg h1, if_neg h2]
      obtain ⟨iha, ihb, ihc⟩ := ih hsort.2 hmem2
      refine ⟨?_, ?_, ?_⟩
      · intro hty
        rw [hpush, iha hty]
        rfl
      · intro hty hdup
        rw [hpush, ihb hty hdup]
        rfl
      · intro hty hnodup
        rw [hpush, ihc hty hnodup]
        have hne : ¬ n = m.name := fun h => h2 h.symm
        simp [Except.map, hne]

/-- Witness for C2: appending a second, differently-labelled counter series
to an existing one-member family succeeds and appends in order. -/
theorem push_spec_witness :
    pushMetric ⟨"c", "counter", "", "l=\"v\"", .counter 0⟩
        [("c", [⟨"c", "counter", "", "", .counter 0⟩])]
      = .ok [("c", [⟨"c", "counter", "", "", .counter 0⟩,
          ⟨"c", "counter", "", "l=\"v\"", .counter 0⟩])] := by
  have h := (push_spec [("c", [⟨"c", "counter", "", "", .counter 0⟩])]
    (by simp) ⟨"c", "counter", "", "l=\"v\"", .counter 0⟩
    ⟨"c", "counter", "", "", .counter 0⟩ [] (by simp)).2.2 rfl (by decide)
  simpa using h

/-- C9: the counter round-trip scenario — register counter `c1` with help
`"Simple counter"` and no labels, increase by 1 then by 2, flush — emits
exactly the HELP line, the TYPE line, and the unlabeled value line `c1 3`. -/
theorem counter_roundtrip_spec :
    (do
      let mm ← mkMetricMeta "c1" [] "Simple counter"
      let m ← mkMetric "counter" mm [] (.counter (inc (inc 0 1) 2))
      let reg ← pushMetric m []
      pure (flushRegistry reg) : Except String String) =
    .ok "# HELP c1 Simple counter\n# TYPE c1 counter\nc1 3\n" := rfl

/-- C10: label values are spliced verbatim (no escaping of quotes,
backslashes or anything else) into the rendered `key="value"` string and
into the flushed exposition text; hence two registrations whose distinct
value tuples render identically collide, and the second fails as a
duplicate series. -/
theorem labels_verbatim_spec :
    (∀ k v : String, renderLabels [(k, 0)] [v] = k ++ "=\"" ++ v ++ "\"") ∧
    (mkMetric "counter" ⟨"c", [("a", 0), ("b", 1)], ""⟩
        ["1\",b=\"2", "3"] (.counter 0)
      = mkMetric "counter" ⟨"c", [("a", 0), ("b", 1)], ""⟩
        ["1", "2\",b=\"3"] (.counter 0)) ∧
    ((["1\",b=\"2", "3"] : List String) ≠ ["1", "2\",b=\"3"]) ∧
    ((do
        let mm ← mkMetricMeta "c" ["a", "b"] ""
        let m1 ← mkMetric "counter" mm ["1\",b=\"2", "3"] (.counter 0)
        let r1 ← pushMetric m1 []
        let m2 ← mkMetric "counter" mm ["1", "2\",b=\"3"] (.counter 0)
        pushMetric m2 r1 : Except String Registry)
      = .error (dupLabelsMsg "c")) ∧
    ((do
        let mm ← mkMetricMeta "c" ["l"] ""
        let m ← mkMetric "counter" mm ["x\"y"] (.counter 0)
        let reg ← pushMetric m []
        pure (flushRegistry reg) : Except String String)
      = .ok "# HELP c \n# TYPE c counter\nc\x7bl=\"x\"y\"\x7d 0\n") :=
  ⟨fun _ _ => rfl, rfl, by decide, rfl, rfl⟩

/-! ### IEEE binary64 rounding lemmas -/

theorem roundHalfEven_intCast (n : ℤ) : roundHalfEven (n : ℚ) = n := by
  rw [roundHalfEven, Int.fract_intCast]
  norm_num

theorem le_roundHalfEven (q : ℚ) : ⌊q⌋ ≤ roundHalfEven q := by
  rw [roundHalfEven]
  split
  · exact le_refl _
  · split
    · omega
    · split
      · exact le_refl _
      · omega

theorem intLog_eq (x : ℚ) (e : ℤ) (h1 : (2 : ℚ) ^ e ≤ x)
    (h2 : x < (2 : ℚ) ^ (e + 1)) : Int.log 2 x = e := by
  have h0 : 0 < x := lt_of_lt_of_le (zpow_pos two_pos e) h1
  have hb : (1 : ℕ) < 2 := one_lt_two
  have hle : e ≤ Int.log 2 x := (Int.zpow_le_iff_le_log hb h0).mp (by exact_mod_cast h1)
  have hlt : Int.log 2 x < e + 1 :=
    (Int.lt_zpow_iff_log_lt hb h0).mp (by exact_mod_cast h2)
  omega

theorem fl_of_pos (x : ℚ) (h : 0 < x) : fl x = flPos x := by
  rw [fl, if_neg h.ne', if_neg (not_lt.mpr h.le)]

theorem fl_eval (x : ℚ) (e n : ℤ) (h1 : (2 : ℚ) ^ e ≤ x)
    (h2 : x < (2 : ℚ) ^ (e + 1))
    (hr : roundHalfEven (x * 2 ^ (52 - e)) = n) : fl x = n * 2 ^ (e - 52) := by
  have h0 : 0 < x := lt_of_lt_of_le (zpow_pos two_pos e) h1
  rw [fl_of_pos x h0, flPos, intLog_eq x e h1 h2, hr]

theorem fl_self (x : ℚ) (e n : ℤ) (h1 : (2 : ℚ) ^ e ≤ x)
    (h2 : x < (2 : ℚ) ^ (e + 1)) (hn : x * 2 ^ (52 - e) = (n : ℚ)) : fl x = x := by
  have hz : (52 : ℤ) - e + (e - 52) = 0 := by ring
  rw [fl_eval x e n h1 h2 (by rw [hn, roundHalfEven_intCast]), ← hn, mul_assoc,
    ← zpow_add₀ (two_ne_zero : (2 : ℚ) ≠ 0), hz, zpow_zero, mul_one]

theorem fl_natCast (m : Nat) (h : m < 2 ^ 53) : fl (m : ℚ) = m := by
  rcases Nat.eq_zero_or_pos m with h0 | h0
  · subst h0
    simp [fl]
  · have hxpos : (0 : ℚ) < m := by exact_mod_cast h0
    have hb : (1 : ℕ) < 2 := one_lt_two
    have h1 : (2 : ℚ) ^ Int.log 2 (m : ℚ) ≤ m := by
      have := Int.zpow_log_le_self hb hxpos
      exact_mod_cast this
    have h2 : (m : ℚ) < (2 : ℚ) ^ (Int.log 2 (m : ℚ) + 1) := by
      have := Int.lt_zpow_succ_log_self hb (m : ℚ)
      exact_mod_cast this
    set e := Int.log 2 (m : ℚ) with he
    have he52 : e ≤ 52 := by
      by_contra hgt
      push_neg at hgt
      have h53 : (53 : ℤ) ≤ e := by omega
      have hp : (2 : ℚ) ^ (53 : ℤ) ≤ (2 : ℚ) ^ e :=
        zpow_le_zpow_right₀ (by norm_num) h53
      have hm : ((2 ^ 53 : ℕ) : ℚ) ≤ (m : ℚ) := by
        rw [show ((2 ^ 53 : ℕ) : ℚ) = (2 : ℚ) ^ (53 : ℤ) by push_cast; norm_num]
        exact le_trans hp h1
      have : (2 ^ 53 : ℕ) ≤ m := by exact_mod_cast hm
      omega
    set k := ((52 : ℤ) - e).toNat with hk
    have hk' : (52 : ℤ) - e = (k : ℤ) := by omega
    refine fl_self (m : ℚ) e ((m : ℤ) * 2 ^ k) h1 h2 ?_
    rw [hk', zpow_natCast]
    push_cast
    ring

theorem fl_ge (x : ℚ) (e : ℤ) (h1 : (2 : ℚ) ^ e ≤ x)
    (h2 : x < (2 : ℚ) ^ (e + 1)) : (2 : ℚ) ^ e ≤ fl x := by
  have h0 : 0 < x := lt_of_lt_of_le (zpow_pos two_pos e) h1
  rw [fl_of_pos x h0, flPos, intLog_eq x e h1 h2]
  have hq : (2 : ℚ) ^ (52 : ℤ) ≤ x * 2 ^ (52 - e) := by
    calc (2 : ℚ) ^ (52 : ℤ) = 2 ^ e * 2 ^ (52 - e) := by
          rw [← zpow_add₀ (two_ne_zero : (2 : ℚ) ≠ 0)]
          congr 1
          ring
      _ ≤ x * 2 ^ (52 - e) :=
          mul_le_mul_of_nonneg_right h1 (le_of_lt (zpow_pos two_pos _))
  have hfl : (2 ^ 52 : ℤ) ≤ ⌊x * 2 ^ (52 - e)⌋ := by
    rw [Int.le_floor]
    calc ((2 ^ 52 : ℤ) : ℚ) = (2 : ℚ) ^ (52 : ℤ) := by push_cast; norm_num
      _ ≤ _ := hq
  have hround : (2 ^ 52 : ℤ) ≤ roundHalfEven (x * 2 ^ (52 - e)) :=
    le_trans hfl (le_roundHalfEven _)
  calc (2 : ℚ) ^ e = (2 : ℚ) ^ (52 : ℤ) * 2 ^ (e - 52) := by
        rw [← zpow_add₀ (two_ne_zero : (2 : ℚ) ≠ 0)]
        congr 1
        ring
    _ ≤ (roundHalfEven (x * 2 ^ (52 - e)) : ℚ) * 2 ^ (e - 52) := by
        refine mul_le_mul_of_nonneg_right ?_ (le_of_lt (zpow_pos two_pos _))
        calc (2 : ℚ) ^ (52 : ℤ) = ((2 ^ 52 : ℤ) : ℚ) := by push_cast; norm_num
          _ ≤ _ := by exact_mod_cast hround

/-- `Unsigned(-1) = 2^64 - 1` rounds up to `2^64` as a `double` (the
nearest representable values around it are `2^64 - 2048` and `2^64`). -/
theorem fl_u64 : fl ((2 : ℚ) ^ 64 - 1) = 2 ^ 64 := by
  rw [fl_eval ((2 : ℚ) ^ 64 - 1) 63 (2 ^ 53) (by norm_num) (by norm_num)
    (by norm_num [roundHalfEven, Int.fract])]
  push_cast
  norm_num

theorem fl_u64_sub_threeHalves : fl ((2 : ℚ) ^ 64 - 3 / 2) = 2 ^ 64 := by
  rw [fl_eval ((2 : ℚ) ^ 64 - 3 / 2) 63 (2 ^ 53) (by norm_num) (by norm_num)
    (by norm_num [roundHalfEven, Int.fract])]
  push_cast
  norm_num

/-- The exponential overflow threshold for `delta = 10`:
`std::floor(double(Unsigned(-1)) / 10)` is the floor of `fl (2^64 / 10)`. -/
theorem fl_u64_div_ten : fl (fl ((2 : ℚ) ^ 64 - 1) / 10) = 1844674407370955264 := by
  rw [fl_u64]
  rw [fl_eval ((2 : ℚ) ^ 64 / 10) 60 7205759403792794 (by norm_num) (by norm_num)
    (by norm_num [roundHalfEven, Int.fract])]
  push_cast
  norm_num

theorem fl_zero : fl 0 = 0 := by
  simp [fl]

theorem fl_one : fl 1 = 1 :=
  fl_self 1 0 (2 ^ 52) (by norm_num) (by norm_num) (by push_cast; norm_num)

theorem fl_threeHalves : fl (3 / 2) = 3 / 2 :=
  fl_self (3 / 2) 0 (3 * 2 ^ 51) (by norm_num) (by norm_num) (by push_cast; norm_num)

theorem fl_fiveHalves : fl (5 / 2) = 5 / 2 :=
  fl_self (5 / 2) 1 (5 * 2 ^ 50) (by norm_num) (by norm_num) (by push_cast; norm_num)

theorem fl_ten : fl 10 = 10 :=
  fl_self 10 3 (5 * 2 ^ 50) (by norm_num) (by norm_num) (by push_cast; norm_num)

theorem fl_hundred : fl 100 = 100 :=
  fl_self 100 6 (25 * 2 ^ 48) (by norm_num) (by norm_num) (by push_cast; norm_num)

theorem fl_thousand : fl 1000 = 1000 :=
  fl_self 1000 9 (125 * 2 ^ 46) (by norm_num) (by norm_num) (by push_cast; norm_num)

theorem fl_2pow60 : fl ((2 : ℚ) ^ 60) = 2 ^ 60 :=
  fl_self ((2 : ℚ) ^ 60) 60 (2 ^ 52) (by norm_num) (by norm_num)
    (by push_cast; norm_num)

/-- At `2^60` the unit in the last place is `256`, so adding 1 rounds back
down: `fl (2^60 + 1) = 2^60`. -/
theorem fl_2pow60_add_one : fl ((2 : ℚ) ^ 60 + 1) = 2 ^ 60 := by
  rw [fl_eval ((2 : ℚ) ^ 60 + 1) 60 (2 ^ 52) (by norm_num) (by norm_num)
    (by norm_num [roundHalfEven, Int.fract])]
  push_cast
  norm_num

/-! ### Bucket-generation lemmas -/

theorem linStep_exact (d le : Nat) (h : le + d < 2 ^ 53) :
    linStep (d : ℚ) le = le + d := by
  have hle : le < 2 ^ 53 := by omega
  have hcast : (le : ℚ) + (d : ℚ) = ((le + d : ℕ) : ℚ) := by push_cast; ring
  rw [linStep, fl_natCast le hle, hcast, fl_natCast (le + d) h, Int.floor_natCast,
    Int.toNat_natCast]

theorem linear_guard_off (d le : Nat) (hd : 1 ≤ d) (hd53 : d < 2 ^ 53)
    (hle : le < 2 ^ 53) :
    ¬ (fl (fl ((2 : ℚ) ^ 64 - 1) - (d : ℚ)) < fl (le : ℚ)) := by
  rw [fl_u64, fl_natCast le hle, not_lt]
  have hdq : (d : ℚ) < 2 ^ 53 := by exact_mod_cast hd53
  have hdq1 : (1 : ℚ) ≤ (d : ℚ) := by exact_mod_cast hd
  have hA : (2 : ℚ) ^ (63 : ℤ) ≤ fl ((2 : ℚ) ^ 64 - (d : ℚ)) := by
    apply fl_ge
    · have e1 : (2 : ℚ) ^ (63 : ℤ) = 2 ^ (63 : ℕ) := by norm_num
      rw [e1]
      have c1 : (2 : ℚ) ^ (53 : ℕ) + 2 ^ (63 : ℕ) ≤ 2 ^ (64 : ℕ) := by norm_num
      linarith
    · have e2 : (2 : ℚ) ^ ((63 : ℤ) + 1) = 2 ^ (64 : ℕ) := by norm_num
      rw [e2]
      linarith
  have hleq : (le : ℚ) < 2 ^ 53 := by exact_mod_cast hle
  have e3 : (2 : ℚ) ^ (53 : ℕ) ≤ (2 : ℚ) ^ (63 : ℤ) := by norm_num
  linarith

theorem linearBounds_ok (name : String) (d : Nat) (hd : 1 ≤ d) (le rem : Nat)
    (h : le + rem * d < 2 ^ 53) :
    linearBounds name (d : ℚ) le rem
      = .ok ((List.range rem).map fun i => le + (i + 1) * d) := by
  induction rem generalizing le with
  | zero => rfl
  | succ r ihr =>
    have hdr : d ≤ (r + 1) * d := Nat.le_mul_of_pos_left d (Nat.succ_pos r)
    have hexp : le + (r + 1) * d = le + d + r * d := by ring
    have hled : le + d < 2 ^ 53 := by omega
    have hguard := linear_guard_off d le hd (by omega) (by omega)
    have hstep := linStep_exact d le hled
    have hrec := ihr (le + d) (by omega)
    simp only [linearBounds, if_neg hguard, hstep, hrec]
    rw [List.range_succ_eq_map, List.map_cons, List.map_map]
    have hhead : le + (0 + 1) * d = le + d := by ring
    have htail : ∀ i ∈ List.range r,
        ((fun i => le + (i + 1) * d) ∘ Nat.succ) i = le + d + (i + 1) * d := by
      intro i _
      show le + (i + 1 + 1) * d = le + d + (i + 1) * d
      ring
    rw [hhead, List.map_congr_left htail]
    rfl

theorem linear_map_chain (a d n : Nat) (hd : 1 ≤ d) :
    ((List.range n).map fun i => a + i * d).Chain' (· < ·) := by
  rw [List.chain'_iff_pairwise, List.pairwise_map]
  refine (List.pairwise_lt_range n).imp fun {i j} hij => ?_
  have : i * d < j * d := Nat.mul_lt_mul_of_lt_of_le hij (le_refl d) (by omega)
  omega

theorem range_succ_map_head (a d c : Nat) :
    (List.range (c + 1)).map (fun i => a + i * d)
      = a :: (List.range c).map fun i => a + (i + 1) * d := by
  rw [List.range_succ_eq_map, List.map_cons, List.map_map]
  have hhead : a + 0 * d = a := by ring
  rw [hhead]
  rfl

/-- C4 (amended): linear construction fails with the invalid-delta error
whenever `delta < 1`; for an integral `delta = d ≥ 1` with every requested
bound below `2^53` — the region where the `double` additions are exact —
the i-th generated bound equals `start + i * d` and the bounds are strictly
increasing. Outside that region the `double` rounding changes the bounds
(see the counterexample: a fractional delta is truncated away each step,
and at magnitude `2^60` adding 1 rounds back down, so bounds repeat), and
the overflow guard compares against `Unsigned(-1) - delta`, whose `double`
value rounds up to `2^64` for every `delta ≤ 1024`, so the claimed
BucketOverflow error cannot occur there. -/
theorem linear_spec (name help : String) (keys : List String)
    (hle : keys.contains "le" = false) (hnd : keys.Nodup)
    (start count : Nat) :
    (∀ delta : ℚ, delta < 1 →
      mkHistogramLinear name ⟨start, delta, count⟩ help keys
        = .error (linDeltaMsg name)) ∧
    (∀ d : Nat, 1 ≤ d → start + (count - 1) * d < 2 ^ 53 →
      mkHistogramLinear name ⟨start, (d : ℚ), count⟩ help keys
        = .ok ⟨⟨name, sortKeys keys, help⟩,
            (List.range count).map fun i => start + i * d⟩ ∧
      ((List.range count).map fun i => start + i * d).Chain' (· < ·)) := by
  have hle' : "le" ∉ keys := by simpa using hle
  have hkeys : histogramKeys keys = .ok keys := by
    simp [histogramKeys, hle']
  have hmeta := mkMetricMeta_ok name help keys hnd
  refine ⟨?_, ?_⟩
  · intro delta hdelta
    simp [mkHistogramLinear, hkeys, hmeta, except_bind_ok, except_throw, hdelta]
  · intro d hd hfit
    have hd1 : ¬ ((d : ℚ) < 1) := by
      rw [not_lt]
      exact_mod_cast hd
    match count, hfit with
    | 0, _ =>
      refine ⟨?_, by simp⟩
      simp [mkHistogramLinear, hkeys, hmeta, except_bind_ok, except_pure, hd1]
    | c + 1, hfit =>
      have hfit' : start + c * d < 2 ^ 53 := by simpa using hfit
      refine ⟨?_, linear_map_chain start d (c + 1) hd⟩
      simp only [mkHistogramLinear, hkeys, except_bind_ok, hmeta, if_neg hd1,
        if_pos (Nat.succ_pos c), Nat.add_sub_cancel,
        linearBounds_ok name d hd start c hfit', range_succ_map_head]
      rfl

/-- Witness for the amended C4 at `start = 500`, `delta = 1000`, `count = 3`
(the test scenario `h2`, bounds `[500, 1500, 2500]`, all far below `2^53`). -/
theorem linear_spec_witness :
    mkHistogramLinear "h2" ⟨500, ((1000 : Nat) : ℚ), 3⟩ "" []
      = .ok ⟨⟨"h2", sortKeys [], ""⟩, (List.range 3).map fun i => 500 + i * 1000⟩ ∧
    ((List.range 3).map fun i => 500 + i * 1000).Chain' (· < ·) :=
  (linear_spec "h2" "" [] rfl List.nodup_nil 500 3).2 1000 (by decide) (by decide)

/-- Counterexample to C4 as stated: the `double` arithmetic breaks the
claimed formula at concrete inputs. With `start = 0, delta = 1.5,
count = 3` the truncation after each addition produces `[0, 1, 2]`, while
`start + 1 * delta = 1.5` is not the second generated bound; with
`start = 2^60, delta = 1, count = 2` the rounded sum
`fl (2^60 + 1) = 2^60` collapses, producing `[2^60, 2^60]` — violating
both the claimed formula and strict increase. -/
theorem linear_formula_counterexample :
    ((mkHistogramLinear "h" ⟨0, 3 / 2, 3⟩ "" []).map Histogram.bounds
      = .ok [0, 1, 2] ∧
     ¬ (((1 : Nat) : ℚ) = (0 : ℚ) + 1 * (3 / 2))) ∧
    ((mkHistogramLinear "h" ⟨2 ^ 60, 1, 2⟩ "" []).map Histogram.bounds
      = .ok [2 ^ 60, 2 ^ 60] ∧
     ¬ ([2 ^ 60, 2 ^ 60] : List Nat).Chain' (· < ·) ∧
     (2 ^ 60 : Nat) ≠ 2 ^ 60 + 1 * 1) := by
  have hkeys : histogramKeys [] = .ok [] := rfl
  have hmeta : mkMetricMeta "h" [] "" = .ok ⟨"h", [], ""⟩ := rfl
  constructor
  · constructor
    · have hg0 : ¬ (fl (fl ((2 : ℚ) ^ 64 - 1) - 3 / 2) < fl ((0 : Nat) : ℚ)) := by
        rw [fl_u64, fl_u64_sub_threeHalves,
          show ((0 : Nat) : ℚ) = 0 by norm_num, fl_zero]
        norm_num
      have hs0 : linStep (3 / 2) 0 = 1 := by
        rw [linStep, show ((0 : Nat) : ℚ) = 0 by norm_num, fl_zero, zero_add,
          fl_threeHalves, show ⌊(3 / 2 : ℚ)⌋ = 1 by norm_num]
        rfl
      have hg1 : ¬ (fl (fl ((2 : ℚ) ^ 64 - 1) - 3 / 2) < fl ((1 : Nat) : ℚ)) := by
        rw [fl_u64, fl_u64_sub_threeHalves,
          show ((1 : Nat) : ℚ) = 1 by norm_num, fl_one]
        norm_num
      have hs1 : linStep (3 / 2) 1 = 2 := by
        rw [linStep, show ((1 : Nat) : ℚ) = 1 by norm_num, fl_one,
          show (1 : ℚ) + 3 / 2 = 5 / 2 by norm_num, fl_fiveHalves,
          show ⌊(5 / 2 : ℚ)⌋ = 2 by norm_num]
        rfl
      have hb : linearBounds "h" (3 / 2) 0 2 = .ok [1, 2] := by
        simp only [linearBounds, if_neg hg0, hs0, if_neg hg1, hs1]
        rfl
      simp only [mkHistogramLinear, hkeys, except_bind_ok, hmeta,
        if_neg (by norm_num : ¬ ((3 / 2 : ℚ) < 1)),
        if_pos (by norm_num : (0 : Nat) < 3),
        show (3 : ℕ) - 1 = 2 from rfl, hb]
      rfl
    · norm_num
  · refine ⟨?_, ?_, by omega⟩
    · have hg : ¬ (fl (fl ((2 : ℚ) ^ 64 - 1) - 1) < fl ((2 ^ 60 : Nat) : ℚ)) := by
        rw [fl_u64, fl_u64,
          show ((2 ^ 60 : Nat) : ℚ) = (2 : ℚ) ^ 60 by push_cast; norm_num,
          fl_2pow60]
        norm_num
      have hs : linStep 1 (2 ^ 60) = 2 ^ 60 := by
        rw [linStep,
          show ((2 ^ 60 : Nat) : ℚ) = (2 : ℚ) ^ 60 by push_cast; norm_num,
          fl_2pow60, fl_2pow60_add_one,
          show ⌊(2 : ℚ) ^ 60⌋ = ((2 ^ 60 : ℕ) : ℤ) by push_cast; norm_num,
          Int.toNat_natCast]
      have hb : linearBounds "h" 1 (2 ^ 60) 1 = .ok [2 ^ 60] := by
        simp only [linearBounds, if_neg hg, hs]
        rfl
      simp only [mkHistogramLinear, hkeys, except_bind_ok, hmeta,
        if_neg (by norm_num : ¬ ((1 : ℚ) < 1)),
        if_pos (by norm_num : (0 : Nat) < 2),
        show (2 : ℕ) - 1 = 1 from rfl, hb]
      rfl
    · simp [List.chain'_cons]

theorem expBounds_ok (name : String) (delta : ℚ) (le rem : Nat)
    (h : ∀ i, i < rem → expOk delta ((expStep delta)^[i] le) ∧
      expStep delta ((expStep delta)^[i] le) ≠ (expStep delta)^[i] le) :
    expBounds name delta le rem
      = .ok ((List.range rem).map fun i => (expStep delta)^[i + 1] le) := by
  induction rem generalizing le with
  | zero => rfl
  | succ r ihr =>
    obtain ⟨hok, hne⟩ := h 0 (Nat.succ_pos r)
    rw [Function.iterate_zero_apply] at hok hne
    have hrec := ihr (expStep delta le) fun i hi => by
      have := h (i + 1) (by omega)
      rwa [Function.iterate_succ_apply] at this
    simp only [expBounds, if_neg (not_lt.mpr hok), if_neg hne, hrec]
    rw [List.range_succ_eq_map, List.map_cons, List.map_map]
    have hhead : (expStep delta)^[0 + 1] le = expStep delta le :=
      Function.iterate_one _ ▸ rfl
    have htail : ∀ i ∈ List.range r,
        ((fun i => (expStep delta)^[i + 1] le) ∘ Nat.succ) i
          = (expStep delta)^[i + 1] (expStep delta le) := by
      intro i _
      show (expStep delta)^[i + 1 + 1] le = _
      rw [Function.iterate_succ_apply]
    rw [hhead, List.map_congr_left htail]
    rfl

theorem expBounds_err (name : String) (delta : ℚ) (j : Nat) :
    ∀ (le rem : Nat), j + 1 ≤ rem →
    (∀ i, i < j → expOk delta ((expStep delta)^[i] le) ∧
      expStep delta ((expStep delta)^[i] le) ≠ (expStep delta)^[i] le) →
    (¬ expOk delta ((expStep delta)^[j] le) →
      expBounds name delta le rem = .error (overflowMsg name)) ∧
    (expOk delta ((expStep delta)^[j] le) →
      expStep delta ((expStep delta)^[j] le) = (expStep delta)^[j] le →
      expBounds name delta le rem = .error (dupBucketMsg name)) := by
  induction j with
  | zero =>
    intro le rem hrem hok
    obtain ⟨r, rfl⟩ : ∃ r, rem = r + 1 := ⟨rem - 1, by omega⟩
    constructor
    · intro hbad
      rw [Function.iterate_zero_apply] at hbad
      simp only [expBounds, if_pos (not_le.mp hbad)]
    · intro hokle hdup
      rw [Function.iterate_zero_apply] at hokle hdup
      simp only [expBounds, if_neg (not_lt.mpr hokle), if_pos hdup]
  | succ k ihk =>
    intro le rem hrem hok
    obtain ⟨r, rfl⟩ : ∃ r, rem = r + 1 := ⟨rem - 1, by omega⟩
    obtain ⟨hok0, hne0⟩ := hok 0 (Nat.succ_pos k)
    rw [Function.iterate_zero_apply] at hok0 hne0
    have hrec := ihk (expStep delta le) r (by omega) fun i hi => by
      have := hok (i + 1) (by omega)
      rwa [Function.iterate_succ_apply] at this
    have hstep : expBounds name delta le (r + 1)
        = (expBounds name delta (expStep delta le) r).map (expStep delta le :: ·) := by
      simp only [expBounds, if_neg (not_lt.mpr hok0), if_neg hne0]
    constructor
    · intro hbad
      rw [Function.iterate_succ_apply] at hbad
      rw [hstep, hrec.1 hbad]
      rfl
    · intro hokj hdupj
      rw [Function.iterate_succ_apply] at hokj hdupj
      rw [hstep, hrec.2 hokj hdupj]
      rfl

/-- C5: exponential construction fails with the invalid-delta error whenever
`delta ≤ 1`; for `delta > 1` the bounds are generated by repeated `double`
multiplication with each rounded product floored (`expStep`), the
construction fails with the bounds-overflow error at the first step whose
converted bound exceeds `std::floor(double(Unsigned(-1)) / delta)` (the
`expOk` guard), and with the duplicate-buckets error at the first step
whose floored product collapses onto the previous bound; in particular
`start = 10, delta = 10, count = 3` yields `[10, 100, 1000]`. The per-step
hypotheses also keep every converted step below `2^64`, where the C++
`double`-to-`Unsigned` conversion is defined. -/
theorem exponential_spec (name help : String) (keys : List String)
    (hle : keys.contains "le" = false) (hnd : keys.Nodup)
    (start count : Nat) :
    (∀ delta : ℚ, delta ≤ 1 →
      mkHistogramExp name ⟨start, delta, count⟩ help keys
        = .error (expDeltaMsg name)) ∧
    (∀ delta : ℚ, 1 < delta →
      ((∀ i, i + 1 < count → expOk delta ((expStep delta)^[i] start) ∧
          expStep delta ((expStep delta)^[i] start) ≠ (expStep delta)^[i] start ∧
          expStep delta ((expStep delta)^[i] start) < 2 ^ 64) →
        mkHistogramExp name ⟨start, delta, count⟩ help keys
          = .ok ⟨⟨name, sortKeys keys, help⟩,
              (List.range count).map fun i => (expStep delta)^[i] start⟩) ∧
      (∀ j, j + 1 < count →
        (∀ i, i < j → expOk delta ((expStep delta)^[i] start) ∧
          expStep delta ((expStep delta)^[i] start) ≠ (expStep delta)^[i] start ∧
          expStep delta ((expStep delta)^[i] start) < 2 ^ 64) →
        (¬ expOk delta ((expStep delta)^[j] start) →
          mkHistogramExp name ⟨start, delta, count⟩ help keys
            = .error (overflowMsg name)) ∧
        (expOk delta ((expStep delta)^[j] start) →
          expStep delta ((expStep delta)^[j] start) = (expStep delta)^[j] start →
          mkHistogramExp name ⟨start, delta, count⟩ help keys
            = .error (dupBucketMsg name)))) ∧
    (mkHistogramExp name ⟨10, 10, 3⟩ help keys
      = .ok ⟨⟨name, sortKeys keys, help⟩, [10, 100, 1000]⟩) := by
  have hle' : "le" ∉ keys := by simpa using hle
  have hkeys : histogramKeys keys = .ok keys := by
    simp [histogramKeys, hle']
  have hmeta := mkMetricMeta_ok name help keys hnd
  have hsucc : ∀ (s c : Nat) (delta : ℚ), 1 < delta →
      (∀ i, i + 1 < c → expOk delta ((expStep delta)^[i] s) ∧
        expStep delta ((expStep delta)^[i] s) ≠ (expStep delta)^[i] s) →
      mkHistogramExp name ⟨s, delta, c⟩ help keys
        = .ok ⟨⟨name, sortKeys keys, help⟩,
            (List.range c).map fun i => (expStep delta)^[i] s⟩ := by
    intro s c delta hdelta hsteps
    have hd1 : ¬ (delta ≤ 1) := not_le.mpr hdelta
    match c with
    | 0 =>
      simp [mkHistogramExp, hkeys, hmeta, except_bind_ok, except_pure, hd1]
    | c' + 1 =>
      have hb := expBounds_ok name delta s c' fun i hi => hsteps i (by omega)
      simp only [mkHistogramExp, hkeys, except_bind_ok, hmeta, if_neg hd1,
        if_pos (Nat.succ_pos c'), Nat.add_sub_cancel, hb]
      rw [List.range_succ_eq_map, List.map_cons, List.map_map]
      have hhead : (expStep delta)^[0] s = s := rfl
      have htail : ∀ i ∈ List.range c',
          ((fun i => (expStep delta)^[i] s) ∘ Nat.succ) i
            = (expStep delta)^[i + 1] s := fun i _ => rfl
      rw [hhead, List.map_congr_left htail]
      rfl
  refine ⟨?_, ?_, ?_⟩
  · intro delta hdelta
    simp [mkHistogramExp, hkeys, hmeta, except_bind_ok, except_throw, hdelta]
  · intro delta hdelta
    refine ⟨fun hsteps => hsucc start count delta hdelta
      (fun i hi => ⟨(hsteps i hi).1, (hsteps i hi).2.1⟩), ?_⟩
    intro j hj hok
    have hd1 : ¬ (delta ≤ 1) := not_le.mpr hdelta
    obtain ⟨c', rfl⟩ : ∃ c', count = c' + 1 := ⟨count - 1, by omega⟩
    have herr := expBounds_err name delta j start c' (by omega)
      (fun i hi => ⟨(hok i hi).1, (hok i hi).2.1⟩)
    constructor
    · intro hbad
      simp only [mkHistogramExp, hkeys, except_bind_ok, hmeta, if_neg hd1,
        if_pos (Nat.succ_pos c'), Nat.add_sub_cancel, herr.1 hbad]
      rfl
    · intro hokj hdupj
      simp only [mkHistogramExp, hkeys, except_bind_ok, hmeta, if_neg hd1,
        if_pos (Nat.succ_pos c'), Nat.add_sub_cancel, herr.2 hokj hdupj]
      rfl
  · have h10 : expStep 10 10 = 100 := by
      rw [expStep, show ((10 : Nat) : ℚ) = 10 by norm_num, fl_ten,
        show (10 : ℚ) * 10 = 100 by norm_num, fl_hundred,
        show ⌊(100 : ℚ)⌋ = 100 by norm_num]
      rfl
    have h100 : expStep 10 100 = 1000 := by
      rw [expStep, show ((100 : Nat) : ℚ) = 100 by norm_num, fl_hundred,
        show (100 : ℚ) * 10 = 1000 by norm_num, fl_thousand,
        show ⌊(1000 : ℚ)⌋ = 1000 by norm_num]
      rfl
    have hok10 : expOk 10 10 := by
      rw [expOk, fl_u64_div_ten, show ((10 : Nat) : ℚ) = 10 by norm_num, fl_ten]
      norm_num
    have hok100 : expOk 10 100 := by
      rw [expOk, fl_u64_div_ten, show ((100 : Nat) : ℚ) = 100 by norm_num,
        fl_hundred]
      norm_num
    have h := hsucc 10 3 10 (by norm_num) ?_
    · rw [h]
      have : (List.range 3).map (fun i => (expStep 10)^[i] 10) = [10, 100, 1000] := by
        have e2 : (expStep 10)^[2] 10 = 1000 := by
          rw [Function.iterate_succ_apply, Function.iterate_one, h10, h100]
        have e1 : (expStep 10)^[1] 10 = 100 := by
          rw [Function.iterate_one, h10]
        simp [List.range_succ, e1, e2, h10]
      rw [this]
    · intro i hi
      match i, hi with
      | 0, _ =>
        rw [Function.iterate_zero_apply, h10]
        exact ⟨hok10, by omega⟩
      | 1, _ =>
        rw [Function.iterate_one, h10, h100]
        exact ⟨hok100, by omega⟩

/-- Witness for C5: the `start = 10, delta = 10, count = 3` scenario. -/
theorem exponential_spec_witness :
    mkHistogramExp "h3" ⟨10, 10, 3⟩ "x" []
      = .ok ⟨⟨"h3", sortKeys [], "x"⟩, [10, 100, 1000]⟩ :=
  (exponential_spec "h3" "x" [] rfl List.nodup_nil 0 0).2.2

end Promxx
